import Mathlib

/-!
Shallow embedding of `finder/index.go` (package `finder` of graphite-clickhouse).

Go strings are modelled as `List Char` (the queries are ASCII metric paths, so
one char per byte), response bodies as `List Nat` (byte values), and the
fallible transport boundary as an `Option` parameter.  Definitions follow the
source function by function; helpers of this repository that live outside the
provided sources (`config`, `pkg/where`, the reversal helpers) are modelled
from the specification and marked as such.
-/

namespace GraphiteIndex

/-- Modelled from the spec: the tri-state direction `{Auto, Forward, Reversed}`
(`config.IndexAuto`, `config.IndexDirect`, `config.IndexReversed`; the config
package is outside the provided sources).  `auto` is the zero value a fresh
finder starts with. -/
inductive Direction where
  | auto
  | direct
  | reversed
deriving DecidableEq

/-- Modelled from the spec: `config.IndexReverse`, the map from the
configuration strings to the direction values; unknown keys give the map's
zero value, i.e. `auto`. -/
def IndexReverse (s : List Char) : Direction :=
  if s = ("direct").toList then Direction.direct
  else if s = ("reversed").toList then Direction.reversed
  else Direction.auto

/-- Modelled from the spec: one reverse rule, an ordered record of
`{prefix, suffix, regex, forced-direction}` (`config.IndexReverses` entry;
outside the provided sources).  The regex is modelled as an abstract matcher
`List Char → Bool` (`none` is a nil regex; `some re` with `re q = true` means
`Regex.FindStringIndex(q) != nil`).  The forced direction is kept as the
configuration string, to be mapped through `IndexReverse` exactly as the
source does. -/
structure IndexReverseRule where
  pre : List Char
  suf : List Char
  regex : Option (List Char → Bool)
  reverse : List Char

/-- The finder state (`IndexFinder` of `finder/index.go`).  The transport
options (`opts`) are dropped: they are only forwarded to the executor
boundary.  `body = none` models a nil response body. -/
structure IndexFinder where
  url : List Char
  table : List Char
  dailyEnabled : Bool
  confReverse : Direction
  confReverses : List IndexReverseRule
  reverse : Direction
  body : Option (List Nat)
  useDaily : Bool

/-- `NewIndex` of `finder/index.go`: a fresh finder; `reverse` starts at the
zero value `auto`, the body is nil. -/
def NewIndex (url table : List Char) (dailyEnabled : Bool) (reverse : List Char)
    (reverses : List IndexReverseRule) : IndexFinder :=
  { url := url
    table := table
    dailyEnabled := dailyEnabled
    confReverse := IndexReverse reverse
    confReverses := reverses
    reverse := Direction.auto
    body := none
    useDaily := false }

/-- Modelled from the spec: the glob wildcard characters of the tree-glob
dialect (`pkg/where`; outside the provided sources). -/
def isWildcardChar (c : Char) : Bool :=
  c = '*' || c = '?' || c = '[' || c = ']' || c = '{' || c = '}'

/-- Modelled from the spec: `where.IndexWildcard` (outside the provided
sources) — the index of the first wildcard character of the pattern, `none`
for a fully literal pattern (Go returns `-1`). -/
def IndexWildcard (q : List Char) : Option Nat :=
  q.findIdx? isWildcardChar

/-- Modelled from the spec: `where.IndexLastWildcard` (outside the provided
sources) — the index of the last wildcard character of the pattern. -/
def IndexLastWildcard (q : List Char) : Option Nat :=
  match q.reverse.findIdx? isWildcardChar with
  | none => none
  | some j => some (q.length - 1 - j)

/-- `strings.Count(query, ".")`: the number of hierarchy separators. -/
def countDots (q : List Char) : Nat :=
  q.count '.'

/-- `bytes.Split`/`strings.Split` on a one-element separator: splits around
each occurrence of `sep`; the empty input yields one empty part. -/
def splitOnElem {α : Type} [DecidableEq α] (sep : α) : List α → List (List α)
  | [] => [[]]
  | c :: rest =>
    match splitOnElem sep rest with
    | [] => [[]]
    | r :: rs => if c = sep then [] :: r :: rs else (c :: r) :: rs

/-- `strings.Join`/`bytes.Join` with a one-element separator. -/
def joinSep {α : Type} (sep : α) : List (List α) → List α
  | [] => []
  | [x] => x
  | x :: xs => x ++ sep :: joinSep sep xs

/-- Modelled from the spec: `finder.ReverseString` (outside the provided
sources) — the segment-preserving reversal of a path (§4.2): split on the
hierarchy separator, reverse the order of the segments, rejoin.  This is the
self-inverse reversal required by §8. -/
def ReverseString (q : List Char) : List Char :=
  joinSep '.' ((splitOnElem '.' q).reverse)

/-- Modelled from the spec: `finder.ReverseBytes` (outside the provided
sources) — the same segment-preserving reversal on raw bytes (46 is the
separator byte). -/
def ReverseBytes (b : List Nat) : List Nat :=
  joinSep 46 ((splitOnElem 46 b).reverse)

/-- `rule.Regex != nil && rule.Regex.FindStringIndex(query) == nil`: the rule
has a regex and it does not match (the skip condition of `checkReverses`). -/
def regexMisses (r : Option (List Char → Bool)) (query : List Char) : Bool :=
  match r with
  | some re => !(re query)
  | none => false

/-- The loop body of `IndexFinder.checkReverses`: walk the rules in order,
`continue` past a rule whose non-empty prefix, non-empty suffix, or non-nil
regex fails to match, and return the first surviving rule's direction; fall
back to the configured direction when no rule survives. -/
def checkReversesGo (conf : Direction) (query : List Char) :
    List IndexReverseRule → Direction
  | [] => conf
  | rule :: rest =>
    if rule.pre ≠ [] ∧ rule.pre.isPrefixOf query = false then
      checkReversesGo conf query rest
    else if rule.suf ≠ [] ∧ rule.suf.isSuffixOf query = false then
      checkReversesGo conf query rest
    else if regexMisses rule.regex query then
      checkReversesGo conf query rest
    else IndexReverse rule.reverse

/-- `IndexFinder.checkReverses` of `finder/index.go`. -/
def checkReverses (idx : IndexFinder) (query : List Char) : Direction :=
  checkReversesGo idx.confReverse query idx.confReverses

/-- A rule matches the pattern when each of its present fields matches: a
non-empty `pre` is a pattern prefix, a non-empty `suf` a pattern suffix, a
non-nil regex matches; absent fields match everything.  (This is the
negation of the three skip conditions of `checkReverses`.) -/
def ruleMatches (query : List Char) (rule : IndexReverseRule) : Bool :=
  (rule.pre.isEmpty || rule.pre.isPrefixOf query)
    && (rule.suf.isEmpty || rule.suf.isSuffixOf query)
    && !(regexMisses rule.regex query)

/-- The re-entrant call `idx.useReverse(query)` that `IndexFinder.useReverse`
performs on itself right after storing a resolved direction: such a call
always sees `reverse ∈ {direct, reversed}` and returns the cached value.
The third branch is unreachable from `useReverse` (every recursive call is
made with a resolved direction stored). -/
def useReverseRe (idx : IndexFinder) (_query : List Char) : Bool × IndexFinder :=
  if idx.reverse = Direction.direct then (false, idx)
  else if idx.reverse = Direction.reversed then (true, idx)
  else (false, idx)

/-- `IndexFinder.useReverse` of `finder/index.go`: return the cached
direction when resolved; otherwise store the first of (reverse-rule result,
wildcard-position heuristic) that resolves and re-enter.  The Go source
assigns `idx.reverse = idx.checkReverses(query)` unconditionally; when that
result is `auto` the assignment stores the value the field already had, so
it is elided here.  The unused Go variable reuse (`w`) is split into the
first- and last-wildcard indices; when a first wildcard exists a last one
does too, so the `getD 0` default is never taken. -/
def useReverse (idx : IndexFinder) (query : List Char) : Bool × IndexFinder :=
  if idx.reverse = Direction.direct then (false, idx)
  else if idx.reverse = Direction.reversed then (true, idx)
  else
    let r := checkReverses idx query
    if r ≠ Direction.auto then
      useReverseRe { idx with reverse := r } query
    else
      match IndexWildcard query with
      | none => useReverseRe { idx with reverse := Direction.direct } query
      | some w =>
        let firstWildcardNode := countDots (query.take w)
        let lw := (IndexLastWildcard query).getD 0
        let lastWildcardNode := countDots (query.drop lw)
        if firstWildcardNode < lastWildcardNode then
          useReverseRe { idx with reverse := Direction.reversed } query
        else
          useReverseRe { idx with reverse := Direction.direct } query

/-- The wildcard-position heuristic of `useReverse`, as a pure function:
`false` for a literal pattern, else compare the separator counts before the
first and after the last wildcard. -/
def wildcardHeuristic (query : List Char) : Bool :=
  match IndexWildcard query with
  | none => false
  | some w =>
    decide (countDots (query.take w) <
      countDots (query.drop ((IndexLastWildcard query).getD 0)))

/-- The direction `useReverse` stores: the cached value if already resolved,
else the first reverse-rule verdict if non-auto, else the heuristic. -/
def resolveDirection (idx : IndexFinder) (query : List Char) : Direction :=
  if idx.reverse = Direction.direct then Direction.direct
  else if idx.reverse = Direction.reversed then Direction.reversed
  else
    match checkReverses idx query with
    | Direction.direct => Direction.direct
    | Direction.reversed => Direction.reversed
    | Direction.auto =>
      if wildcardHeuristic query then Direction.reversed else Direction.direct

/-- `ReverseLevelOffset` of `finder/index.go`. -/
def ReverseLevelOffset : Nat := 10000

/-- `TreeLevelOffset` of `finder/index.go`. -/
def TreeLevelOffset : Nat := 20000

/-- `ReverseTreeLevelOffset` of `finder/index.go`. -/
def ReverseTreeLevelOffset : Nat := 30000

/-- `DefaultTreeDate` of `finder/index.go`: the fixed sentinel date of the
non-dated tree partition. -/
def DefaultTreeDate : List Char := ("1970-02-12").toList

/-- A value compared by the predicate DSL's equality clause. -/
inductive CondVal where
  | num (n : Nat)
  | str (s : List Char)
deriving DecidableEq

/-- Modelled from the spec: one clause of the predicate DSL (`pkg/where`;
outside the provided sources): an equality on a column, the tree-glob match
on `Path`, or the formatted inclusive date-range clause that `Execute` adds
with `Andf`.  A `where.Where` is the AND of its clauses, kept as a list. -/
inductive Cond where
  | eq (field : List Char) (v : CondVal)
  | treeGlob (field : List Char) (pat : List Char)
  | dateBetween (lo hi : List Char)
deriving DecidableEq

/-- `IndexFinder.where` of `finder/index.go` (renamed: `where` is a Lean
keyword): level equality plus the tree-glob clause. -/
def whereQ (query : List Char) (levelOffset : Nat) : List Cond :=
  [Cond.eq (("Level").toList) (CondVal.num (countDots query + 1 + levelOffset)),
   Cond.treeGlob (("Path").toList) query]

/-- Civil date from a day count since 1970-01-01 (proleptic Gregorian),
giving `(year, month, day)`. -/
def civilFromDays (days : Nat) : Nat × Nat × Nat :=
  let z := days + 719468
  let era := z / 146097
  let doe := z % 146097
  let yoe := (doe - doe / 1460 + doe / 36524 - doe / 146096) / 365
  let y := yoe + era * 400
  let doy := doe - (365 * yoe + yoe / 4 - yoe / 100)
  let mp := (5 * doy + 2) / 153
  let d := doy - (153 * mp + 2) / 5 + 1
  let m := if mp < 10 then mp + 3 else mp - 9
  (if m ≤ 2 then y + 1 else y, m, d)

/-- Zero-pad a decimal rendering to `width` digits. -/
def padNat (width n : Nat) : List Char :=
  let s := (toString n).toList
  List.replicate (width - s.length) '0' ++ s

/-- `time.Unix(t, 0).Format("2006-01-02")` in UTC, for the non-negative
timestamps daily mode guarantees (`from > 0`, `until > 0`): the calendar
date of the instant, rendered `YYYY-MM-DD`. -/
def formatDate (t : Int) : List Char :=
  let ymd := civilFromDays (t.toNat / 86400)
  padNat 4 ymd.1 ++ '-' :: padNat 2 ymd.2.1 ++ '-' :: padNat 2 ymd.2.2

/-- `IndexFinder.Execute` of `finder/index.go`.  The transport call
(`clickhouse.Query`) is the executor boundary; its returned bytes enter as
`resp` (`none` models a nil body) and are stored unchanged.  The repeated
`idx.useReverse(query)` calls of the source are threaded through the state
explicitly.  Returns the finder after execution together with the composed
WHERE clauses. -/
def Execute (idx : IndexFinder) (query : List Char) (fromT untilT : Int)
    (resp : Option (List Nat)) : IndexFinder × List Cond :=
  let s1 := useReverse idx query
  let idx1 := s1.2
  let idx2 :=
    if idx1.dailyEnabled ∧ 0 < fromT ∧ 0 < untilT then
      { idx1 with useDaily := true }
    else
      { idx1 with useDaily := false }
  let s2 := useReverse idx2 query
  let idx3 := s2.2
  let levelOffset : Nat :=
    if idx3.useDaily then
      if s2.1 then ReverseLevelOffset else 0
    else
      if s2.1 then ReverseTreeLevelOffset else TreeLevelOffset
  let s3 := useReverse idx3 query
  let idx4 := s3.2
  let query1 := if s3.1 then ReverseString query else query
  let w := whereQ query1 levelOffset
  let w :=
    if idx4.useDaily then
      w ++ [Cond.dateBetween (formatDate fromT) (formatDate untilT)]
    else
      w ++ [Cond.eq (("Date").toList) (CondVal.str DefaultTreeDate)]
  ({ idx4 with body := resp }, w)

/-- The row-retention predicate of `makeList`'s compaction loop: empty lines
are dropped, and with `onlySeries` also the lines whose final byte is the
hierarchy separator (46, the directory marker). -/
def keepRow (onlySeries : Bool) (row : List Nat) : Bool :=
  if row = [] then false
  else if onlySeries ∧ row.getLast? = some 46 then false
  else true

/-- The in-place compaction loop of `IndexFinder.makeList`: scan `rows` from
index `i` with `skip` rows dropped so far; a dropped row bumps `skip`, a kept
row is moved `skip` slots left when `skip > 0`.  `fuel` bounds the iteration
count (the caller passes `rows.length`, which is preserved by `List.set`, so
the fuel never runs out before `i` reaches the end). -/
def makeListLoop (onlySeries : Bool) :
    Nat → List (List Nat) → Nat → Nat → List (List Nat) × Nat
  | 0, rows, _, skip => (rows, skip)
  | fuel + 1, rows, i, skip =>
    if h : i < rows.length then
      if rows[i] = [] then
        makeListLoop onlySeries fuel rows (i + 1) (skip + 1)
      else if onlySeries ∧ rows[i].getLast? = some 46 then
        makeListLoop onlySeries fuel rows (i + 1) (skip + 1)
      else if 0 < skip then
        makeListLoop onlySeries fuel (rows.set (i - skip) rows[i]) (i + 1) skip
      else
        makeListLoop onlySeries fuel rows (i + 1) skip
    else (rows, skip)

/-- `IndexFinder.makeList` of `finder/index.go`: nil body gives the empty
(non-nil) slice; otherwise split the body on newlines, compact away the
dropped rows, truncate, and un-reverse each row when the finder's direction
resolves reversed (the source calls `idx.useReverse("")` here, which can
still resolve the direction, so the finder state is returned too). -/
def makeList (idx : IndexFinder) (onlySeries : Bool) :
    List (List Nat) × IndexFinder :=
  match idx.body with
  | none => ([], idx)
  | some body =>
    let rows := splitOnElem 10 body
    let p := makeListLoop onlySeries rows.length rows 0 0
    let rows2 := p.1.take (p.1.length - p.2)
    let s := useReverse idx []
    (if s.1 then rows2.map ReverseBytes else rows2, s.2)

/-- `IndexFinder.List` of `finder/index.go` (suffixed to avoid the clash
with Lean's `List`). -/
def ListF (idx : IndexFinder) : List (List Nat) × IndexFinder :=
  makeList idx false

/-- `IndexFinder.Series` of `finder/index.go`. -/
def SeriesF (idx : IndexFinder) : List (List Nat) × IndexFinder :=
  makeList idx true

/-- `IndexFinder.Abs` of `finder/index.go`: the identity. -/
def Abs (_idx : IndexFinder) (v : List Nat) : List Nat := v

/-! ## Concrete fixtures used to instantiate the theorems -/

/-- A fresh finder with no configuration: auto direction, no reverse rules,
daily indexing disabled, nil body. -/
def emptyFinder : IndexFinder :=
  NewIndex [] (("graphite_index").toList) false (("auto").toList) []

/-- The fresh finder with daily indexing enabled. -/
def dailyFinder : IndexFinder :=
  NewIndex [] (("graphite_index").toList) true (("auto").toList) []

/-- A finder that has resolved to the reversed direction and holds the
response body `".b\n"` (bytes 46, 98, 10). -/
def reversedDotB : IndexFinder :=
  { emptyFinder with reverse := Direction.reversed, body := some [46, 98, 10] }

/-- A reverse rule whose prefix `x` does not match the patterns below. -/
def ruleXPre : IndexReverseRule :=
  { pre := ("x").toList, suf := [], regex := none, reverse := ("reversed").toList }

/-- A reverse rule with prefix `a`, forcing the reversed direction. -/
def ruleAPre : IndexReverseRule :=
  { pre := ("a").toList, suf := [], regex := none, reverse := ("reversed").toList }

/-- A reverse rule with no present fields (it matches every pattern)
carrying the `auto` direction. -/
def ruleAllAuto : IndexReverseRule :=
  { pre := [], suf := [], regex := none, reverse := ("auto").toList }

/-- A finder configured with a non-matching rule followed by a matching
reversed rule. -/
def finderC8 : IndexFinder :=
  { emptyFinder with confReverses := [ruleXPre, ruleAPre] }

/-- A finder whose first matching rule carries `auto`, followed by a
matching reversed rule. -/
def finderC10 : IndexFinder :=
  { emptyFinder with confReverses := [ruleAllAuto, ruleAPre] }

/-- A forward-resolved finder holding the body `"a.b.\na.b.c\n"`
(bytes of the two lines `a.b.` and `a.b.c`). -/
def forwardAB : IndexFinder :=
  { emptyFinder with
    reverse := Direction.direct
    body := some [97, 46, 98, 46, 10, 97, 46, 98, 46, 99, 10] }

/-! ## Lemmas about direction resolution -/

theorem useReverse_of_direct (idx : IndexFinder) (q : List Char)
    (h : idx.reverse = Direction.direct) : useReverse idx q = (false, idx) := by
  unfold useReverse
  simp [h]

theorem useReverse_of_reversed (idx : IndexFinder) (q : List Char)
    (h : idx.reverse = Direction.reversed) : useReverse idx q = (true, idx) := by
  unfold useReverse
  simp [h]

theorem reverse_eq_auto_of_ne (idx : IndexFinder)
    (h1 : idx.reverse ≠ Direction.direct) (h2 : idx.reverse ≠ Direction.reversed) :
    idx.reverse = Direction.auto := by
  cases h : idx.reverse <;> simp_all

/-- Writing back the direction a finder already holds is the identity. -/
theorem eta_reverse (idx : IndexFinder) (d : Direction) (h : idx.reverse = d) :
    ({ idx with reverse := d } : IndexFinder) = idx := by
  rw [← h]

/-- `useReverse` computes `resolveDirection`: it returns whether the resolved
direction is `reversed`, and stores the resolved direction in the finder. -/
theorem useReverse_eq (idx : IndexFinder) (q : List Char) :
    useReverse idx q =
      (decide (resolveDirection idx q = Direction.reversed),
        { idx with reverse := resolveDirection idx q }) := by
  by_cases h1 : idx.reverse = Direction.direct
  · rw [useReverse_of_direct idx q h1]
    unfold resolveDirection
    rw [if_pos h1, show (decide (Direction.direct = Direction.reversed)) = false from rfl,
      eta_reverse idx Direction.direct h1]
  · by_cases h2 : idx.reverse = Direction.reversed
    · rw [useReverse_of_reversed idx q h2]
      unfold resolveDirection
      rw [if_neg h1, if_pos h2,
        show (decide (Direction.reversed = Direction.reversed)) = true from rfl,
        eta_reverse idx Direction.reversed h2]
    · have h3 : idx.reverse = Direction.auto := reverse_eq_auto_of_ne idx h1 h2
      unfold useReverse resolveDirection
      simp only [if_neg h1, if_neg h2]
      cases hcr : checkReverses idx q with
      | direct => simp [hcr, useReverseRe]
      | reversed => simp [hcr, useReverseRe]
      | auto =>
        simp only [hcr, ne_eq, not_true_eq_false, if_false]
        split
        next hw =>
          simp [wildcardHeuristic, hw, useReverseRe]
        next w hw =>
          by_cases hlt : countDots (q.take w) <
              countDots (q.drop ((IndexLastWildcard q).getD 0))
          · simp [wildcardHeuristic, hw, hlt, useReverseRe]
          · simp [wildcardHeuristic, hw, hlt, useReverseRe]

theorem resolveDirection_ne_auto (idx : IndexFinder) (q : List Char) :
    resolveDirection idx q ≠ Direction.auto := by
  unfold resolveDirection
  by_cases h1 : idx.reverse = Direction.direct
  · simp [h1]
  · by_cases h2 : idx.reverse = Direction.reversed
    · simp [h1, h2]
    · simp only [if_neg h1, if_neg h2]
      cases hcr : checkReverses idx q <;> simp
      split <;> simp

/-- A second `useReverse` call on the state left by a first call returns the
first call's value and leaves the state untouched. -/
theorem useReverse_again (idx : IndexFinder) (q q' : List Char) :
    useReverse ((useReverse idx q).2) q' = ((useReverse idx q).1, (useReverse idx q).2) := by
  rw [useReverse_eq idx q]
  cases hd : resolveDirection idx q with
  | auto => exact absurd hd (resolveDirection_ne_auto idx q)
  | direct =>
    have h := useReverse_of_direct { idx with reverse := Direction.direct } q' rfl
    simp [h]
  | reversed =>
    have h := useReverse_of_reversed { idx with reverse := Direction.reversed } q' rfl
    simp [h]

/-! ## Lemmas about the reverse rules -/

/-- `ruleMatches` is the negation of the three skip conditions of
`checkReverses`. -/
theorem ruleMatches_iff (query : List Char) (rule : IndexReverseRule) :
    ruleMatches query rule = true ↔
      (¬(rule.pre ≠ [] ∧ rule.pre.isPrefixOf query = false)
        ∧ ¬(rule.suf ≠ [] ∧ rule.suf.isSuffixOf query = false)
        ∧ ¬(regexMisses rule.regex query = true)) := by
  unfold ruleMatches
  simp only [Bool.and_eq_true, Bool.or_eq_true, Bool.not_eq_true',
    List.isEmpty_iff, Bool.not_eq_true]
  constructor
  · rintro ⟨⟨hp, hs⟩, hr⟩
    refine ⟨?_, ?_, by simp [hr]⟩
    · rcases hp with h | h
      · exact fun hc => hc.1 h
      · exact fun hc => by rw [h] at hc; exact absurd hc.2 (by simp)
    · rcases hs with h | h
      · exact fun hc => hc.1 h
      · exact fun hc => by rw [h] at hc; exact absurd hc.2 (by simp)
  · rintro ⟨hp, hs, hr⟩
    refine ⟨⟨?_, ?_⟩, by simpa using hr⟩
    · by_cases h : rule.pre = []
      · exact Or.inl h
      · right
        cases h2 : rule.pre.isPrefixOf query
        · exact absurd ⟨h, h2⟩ hp
        · rfl
    · by_cases h : rule.suf = []
      · exact Or.inl h
      · right
        cases h2 : rule.suf.isSuffixOf query
        · exact absurd ⟨h, h2⟩ hs
        · rfl

/-- The rule walk returns the first matching rule's direction, or the
configured fallback when no rule matches. -/
theorem checkReversesGo_eq_find (conf : Direction) (query : List Char)
    (rules : List IndexReverseRule) :
    checkReversesGo conf query rules =
      (match rules.find? (ruleMatches query) with
       | some rule => IndexReverse rule.reverse
       | none => conf) := by
  induction rules with
  | nil => rfl
  | cons rule rest ih =>
    unfold checkReversesGo
    by_cases hm : ruleMatches query rule = true
    · have h := (ruleMatches_iff query rule).mp hm
      rw [if_neg h.1, if_neg h.2.1, if_neg h.2.2, List.find?_cons_of_pos _ hm]
    · rw [List.find?_cons_of_neg _ hm, ← ih]
      by_cases hs1 : rule.pre ≠ [] ∧ rule.pre.isPrefixOf query = false
      · rw [if_pos hs1]
      · by_cases hs2 : rule.suf ≠ [] ∧ rule.suf.isSuffixOf query = false
        · rw [if_neg hs1, if_pos hs2]
        · have hs3 : regexMisses rule.regex query = true := by
            by_contra hs3
            exact hm ((ruleMatches_iff query rule).mpr ⟨hs1, hs2, hs3⟩)
          rw [if_neg hs1, if_neg hs2, if_pos hs3]

theorem checkReverses_eq_find (idx : IndexFinder) (query : List Char) :
    checkReverses idx query =
      (match idx.confReverses.find? (ruleMatches query) with
       | some rule => IndexReverse rule.reverse
       | none => idx.confReverse) :=
  checkReversesGo_eq_find idx.confReverse query idx.confReverses

theorem checkReverses_of_no_match (idx : IndexFinder) (query : List Char)
    (h : ∀ rule ∈ idx.confReverses, ruleMatches query rule = false) :
    checkReverses idx query = idx.confReverse := by
  rw [checkReverses_eq_find]
  have hf : idx.confReverses.find? (ruleMatches query) = none :=
    List.find?_eq_none.mpr (by intro x hx; simp [h x hx])
  rw [hf]

/-! ## Counting lemmas for the segment reversal -/

theorem splitOnElem_cons_eq {α : Type} [DecidableEq α] (sep c : α)
    (rest r : List α) (rs : List (List α)) (h : splitOnElem sep rest = r :: rs) :
    splitOnElem sep (c :: rest) =
      (if c = sep then [] :: r :: rs else (c :: r) :: rs) := by
  unfold splitOnElem
  rw [h]

theorem splitOnElem_ne_nil {α : Type} [DecidableEq α] (sep : α) (l : List α) :
    splitOnElem sep l ≠ [] := by
  induction l with
  | nil => simp [splitOnElem]
  | cons c rest ih =>
    cases h : splitOnElem sep rest with
    | nil => exact absurd h ih
    | cons r rs =>
      rw [splitOnElem_cons_eq sep c rest r rs h]
      split <;> simp

theorem length_splitOnElem {α : Type} [DecidableEq α] (sep : α) (l : List α) :
    (splitOnElem sep l).length = l.count sep + 1 := by
  induction l with
  | nil => simp [splitOnElem]
  | cons c rest ih =>
    cases h : splitOnElem sep rest with
    | nil => exact absurd h (splitOnElem_ne_nil sep rest)
    | cons r rs =>
      rw [h] at ih
      rw [splitOnElem_cons_eq sep c rest r rs h]
      by_cases hc : c = sep
      · subst hc
        rw [if_pos rfl]
        simp only [List.length_cons, List.count_cons_self] at ih ⊢
        omega
      · rw [if_neg hc, List.count_cons_of_ne (fun he => hc he.symm)]
        simpa using ih

theorem count_eq_zero_of_mem_splitOnElem {α : Type} [DecidableEq α] (sep : α)
    (l : List α) : ∀ p ∈ splitOnElem sep l, p.count sep = 0 := by
  induction l with
  | nil =>
    intro p hp
    simp [splitOnElem] at hp
    simp [hp]
  | cons c rest ih =>
    intro p hp
    cases h : splitOnElem sep rest with
    | nil => exact absurd h (splitOnElem_ne_nil sep rest)
    | cons r rs =>
      rw [splitOnElem_cons_eq sep c rest r rs h] at hp
      have ih' : ∀ x ∈ r :: rs, List.count sep x = 0 := by
        intro x hx
        exact ih x (h ▸ hx)
      by_cases hc : c = sep
      · rw [if_pos hc] at hp
        rcases List.mem_cons.mp hp with rfl | hp2
        · simp
        · exact ih' p hp2
      · rw [if_neg hc] at hp
        rcases List.mem_cons.mp hp with rfl | hp2
        · rw [List.count_cons_of_ne (fun he => hc he.symm)]
          exact ih' r (List.mem_cons_self r rs)
        · exact ih' p (List.mem_cons_of_mem r hp2)

theorem count_joinSep {α : Type} [DecidableEq α] (sep : α) :
    ∀ parts : List (List α), parts ≠ [] →
      (joinSep sep parts).count sep =
        parts.length - 1 + (parts.map (fun p => p.count sep)).sum := by
  intro parts
  induction parts with
  | nil => intro h; exact absurd rfl h
  | cons x xs ih =>
    intro _
    cases xs with
    | nil => simp [joinSep]
    | cons y ys =>
      have ihy := ih (by simp)
      show (x ++ sep :: joinSep sep (y :: ys)).count sep = _
      rw [List.count_append, List.count_cons_self, ihy]
      simp only [List.length_cons, List.map_cons, List.sum_cons]
      omega

/-- Segment reversal preserves the number of hierarchy separators, hence the
level of the pattern. -/
theorem countDots_ReverseString (q : List Char) :
    countDots (ReverseString q) = countDots q := by
  unfold ReverseString countDots
  rw [count_joinSep '.' _ (by simp [splitOnElem_ne_nil])]
  rw [List.length_reverse, length_splitOnElem]
  have hz : (((splitOnElem '.' q).reverse).map (fun p => p.count '.')).sum = 0 := by
    apply List.sum_eq_zero
    intro x hx
    obtain ⟨p, hp, rfl⟩ := List.mem_map.mp hx
    exact count_eq_zero_of_mem_splitOnElem '.' q p (List.mem_reverse.mp hp)
  rw [hz]
  omega

/-! ## List helpers for the in-place compaction loop -/

theorem drop_set_of_lt {α : Type} (l : List α) (j : Nat) (a : α) (k : Nat)
    (h : j < k) : (l.set j a).drop k = l.drop k := by
  induction l generalizing j k with
  | nil => simp
  | cons c t ih =>
    cases k with
    | zero => omega
    | succ k' =>
      cases j with
      | zero => simp
      | succ j' =>
        simp only [List.set_cons_succ, List.drop_succ_cons]
        exact ih j' k' (by omega)

theorem take_set_succ {α : Type} (l : List α) (j : Nat) (a : α)
    (h : j < l.length) : (l.set j a).take (j + 1) = l.take j ++ [a] := by
  induction l generalizing j with
  | nil => simp at h
  | cons c t ih =>
    cases j with
    | zero => simp
    | succ j' =>
      simp only [List.set_cons_succ, List.take_succ_cons, List.cons_append]
      rw [ih j' (by simpa using h)]

theorem take_succ_getElem {α : Type} (l : List α) (i : Nat) (h : i < l.length) :
    l.take (i + 1) = l.take i ++ [l[i]] := by
  induction l generalizing i with
  | nil => simp at h
  | cons c t ih =>
    cases i with
    | zero => simp
    | succ i' =>
      simp only [List.take_succ_cons, List.cons_append, List.getElem_cons_succ]
      rw [ih i' (by simpa using h)]

theorem drop_eq_getElem_cons' {α : Type} (l : List α) (i : Nat)
    (h : i < l.length) : l.drop i = l[i] :: l.drop (i + 1) := by
  induction l generalizing i with
  | nil => simp at h
  | cons c t ih =>
    cases i with
    | zero => simp
    | succ i' =>
      simp only [List.drop_succ_cons, List.getElem_cons_succ]
      exact ih i' (by simpa using h)

/-! ## The compaction loop computes an order-preserving filter -/

theorem makeListLoop_take (os : Bool) :
    ∀ (fuel : Nat) (rows : List (List Nat)) (i skip : Nat),
      skip ≤ i → i ≤ rows.length → rows.length ≤ i + fuel →
      ((makeListLoop os fuel rows i skip).1).take
          ((makeListLoop os fuel rows i skip).1.length - (makeListLoop os fuel rows i skip).2)
        = rows.take (i - skip) ++ (rows.drop i).filter (keepRow os) := by
  intro fuel
  induction fuel with
  | zero =>
    intro rows i skip h1 h2 h3
    have hi : i = rows.length := by omega
    subst hi
    simp [makeListLoop, List.drop_length]
  | succ fuel ih =>
    intro rows i skip h1 h2 h3
    unfold makeListLoop
    by_cases h : i < rows.length
    · rw [dif_pos h]
      by_cases hempty : rows[i] = []
      · rw [if_pos hempty]
        rw [ih rows (i + 1) (skip + 1) (by omega) (by omega) (by omega)]
        have hkr : keepRow os rows[i] = false := by simp [keepRow, hempty]
        rw [drop_eq_getElem_cons' rows i h, List.filter_cons, hkr]
        have he : i + 1 - (skip + 1) = i - skip := by omega
        rw [he]
        simp
      · by_cases hser : os = true ∧ rows[i].getLast? = some 46
        · rw [if_neg hempty, if_pos hser]
          rw [ih rows (i + 1) (skip + 1) (by omega) (by omega) (by omega)]
          have hkr : keepRow os rows[i] = false := by
            simp only [keepRow, if_neg hempty, hser.1, hser.2]
            simp
          rw [drop_eq_getElem_cons' rows i h, List.filter_cons, hkr]
          have he : i + 1 - (skip + 1) = i - skip := by omega
          rw [he]
          simp
        · have hkr : keepRow os rows[i] = true := by
            simp only [keepRow, if_neg hempty]
            rw [if_neg (by exact_mod_cast hser)]
          by_cases hskip : 0 < skip
          · rw [if_neg hempty, if_neg (by exact_mod_cast hser), if_pos hskip]
            rw [ih (rows.set (i - skip) rows[i]) (i + 1) skip (by omega)
              (by rw [List.length_set]; omega) (by rw [List.length_set]; omega)]
            rw [drop_set_of_lt rows (i - skip) rows[i] (i + 1) (by omega)]
            have h2' : i + 1 - skip = (i - skip) + 1 := by omega
            rw [h2', take_set_succ rows (i - skip) rows[i] (by omega)]
            rw [drop_eq_getElem_cons' rows i h, List.filter_cons, hkr]
            simp
          · rw [if_neg hempty, if_neg (by exact_mod_cast hser), if_neg hskip]
            have hskip0 : skip = 0 := by omega
            subst hskip0
            rw [ih rows (i + 1) 0 (by omega) (by omega) (by omega)]
            rw [Nat.sub_zero, Nat.sub_zero, take_succ_getElem rows i h]
            rw [drop_eq_getElem_cons' rows i h, List.filter_cons, hkr]
            simp only [eq_self_iff_true, if_true, List.append_assoc,
              List.singleton_append]
    · rw [dif_neg h]
      have hi : i = rows.length := by omega
      subst hi
      simp [List.drop_length]

/-- `makeList` on a non-nil body: an order-preserving filter of the
newline-split rows, each row un-reversed when the direction resolves
reversed; the finder state only changes by resolving the direction. -/
theorem makeList_eq (idx : IndexFinder) (os : Bool) (b : List Nat)
    (hb : idx.body = some b) :
    makeList idx os =
      ((if (useReverse idx []).1 then
          ((splitOnElem 10 b).filter (keepRow os)).map ReverseBytes
        else (splitOnElem 10 b).filter (keepRow os)),
       (useReverse idx []).2) := by
  have hloop := makeListLoop_take os (splitOnElem 10 b).length (splitOnElem 10 b) 0 0
    (le_refl 0) (Nat.zero_le _) (by omega)
  simp only [Nat.sub_zero, List.take_zero, List.drop_zero, List.nil_append] at hloop
  simp only [makeList, hb]
  rw [hloop]

theorem resolveDirection_of_direct (idx : IndexFinder) (q : List Char)
    (h : idx.reverse = Direction.direct) :
    resolveDirection idx q = Direction.direct := by
  unfold resolveDirection
  rw [if_pos h]

theorem resolveDirection_of_reversed (idx : IndexFinder) (q : List Char)
    (h : idx.reverse = Direction.reversed) :
    resolveDirection idx q = Direction.reversed := by
  unfold resolveDirection
  rw [if_neg (by rw [h]; simp), if_pos h]

/-- `Execute`, written out: the finder resolves its direction, fixes daily
mode, stores the body; the clauses are the level equality (on the possibly
reversed pattern, whose level equals the original pattern's), the tree-glob,
and the date clause selected by daily mode. -/
theorem Execute_eq (idx : IndexFinder) (q : List Char) (fromT untilT : Int)
    (resp : Option (List Nat)) :
    Execute idx q fromT untilT resp =
      ({ idx with
          reverse := resolveDirection idx q,
          useDaily := if idx.dailyEnabled = true ∧ 0 < fromT ∧ 0 < untilT then true else false,
          body := resp },
       [Cond.eq (("Level").toList)
          (CondVal.num (countDots q + 1 +
            (if (idx.dailyEnabled = true ∧ 0 < fromT ∧ 0 < untilT) then
              (if resolveDirection idx q = Direction.reversed then ReverseLevelOffset else 0)
             else
              (if resolveDirection idx q = Direction.reversed then ReverseTreeLevelOffset
               else TreeLevelOffset)))),
        Cond.treeGlob (("Path").toList)
          (if resolveDirection idx q = Direction.reversed then ReverseString q else q)] ++
       (if (idx.dailyEnabled = true ∧ 0 < fromT ∧ 0 < untilT) then
          [Cond.dateBetween (formatDate fromT) (formatDate untilT)]
        else
          [Cond.eq (("Date").toList) (CondVal.str DefaultTreeDate)])) := by
  cases hd : resolveDirection idx q with
  | auto => exact absurd hd (resolveDirection_ne_auto idx q)
  | direct =>
    by_cases hD : (idx.dailyEnabled = true ∧ 0 < fromT ∧ 0 < untilT)
    · simp [Execute, useReverse_eq, hd, hD, resolveDirection_of_direct, whereQ]
    · simp [Execute, useReverse_eq, hd, hD, resolveDirection_of_direct, whereQ]
  | reversed =>
    by_cases hD : (idx.dailyEnabled = true ∧ 0 < fromT ∧ 0 < untilT)
    · simp [Execute, useReverse_eq, hd, hD, resolveDirection_of_reversed, whereQ,
        countDots_ReverseString]
    · simp [Execute, useReverse_eq, hd, hD, resolveDirection_of_reversed, whereQ,
        countDots_ReverseString]

/-! ## Claim theorems -/

/-- C3: direction resolution is a one-shot state machine: after any
`useReverse` call the stored direction is never `auto` again, and every
subsequent call — with any pattern — returns the cached value and leaves the
state untouched. -/
theorem claim3_direction_memoized (idx : IndexFinder) (q q' : List Char) :
    (useReverse idx q).2.reverse ≠ Direction.auto ∧
      useReverse ((useReverse idx q).2) q' =
        ((useReverse idx q).1, (useReverse idx q).2) := by
  constructor
  · rw [useReverse_eq]
    simpa using resolveDirection_ne_auto idx q
  · exact useReverse_again idx q q'

/-- C2: with an auto state, an auto configured direction and no matching
reverse rule, a pattern containing a wildcard resolves reversed exactly when
the separator count before the first wildcard is strictly smaller than the
separator count from the last wildcard to the end. -/
theorem claim2_wildcard_heuristic (idx : IndexFinder) (query : List Char) (w : Nat)
    (hauto : idx.reverse = Direction.auto)
    (hconf : idx.confReverse = Direction.auto)
    (hrules : ∀ rule ∈ idx.confReverses, ruleMatches query rule = false)
    (hw : IndexWildcard query = some w) :
    ((useReverse idx query).1 = true ↔
      countDots (query.take w) <
        countDots (query.drop ((IndexLastWildcard query).getD 0))) := by
  rw [useReverse_eq]
  have hcr : checkReverses idx query = Direction.auto := by
    rw [checkReverses_of_no_match idx query hrules, hconf]
  unfold resolveDirection
  rw [if_neg (by rw [hauto]; simp), if_neg (by rw [hauto]; simp), hcr]
  simp only [wildcardHeuristic, hw]
  by_cases hlt : countDots (query.take w) <
      countDots (query.drop ((IndexLastWildcard query).getD 0))
  · simp [hlt]
  · simp [hlt]

theorem claim2_witness :
    (useReverse emptyFinder (("*.b.c.d").toList)).1 = true := by
  have h := claim2_wildcard_heuristic emptyFinder (("*.b.c.d").toList) 0 rfl
    (by decide) (by intro rule hr; simp [emptyFinder, NewIndex] at hr) (by decide)
  exact h.mpr (by decide)

/-- C4: with an auto state, an auto configured direction and no matching
reverse rule, a wildcard-free pattern resolves to the forward direction. -/
theorem claim4_literal_forward (idx : IndexFinder) (query : List Char)
    (hauto : idx.reverse = Direction.auto)
    (hconf : idx.confReverse = Direction.auto)
    (hrules : ∀ rule ∈ idx.confReverses, ruleMatches query rule = false)
    (hw : IndexWildcard query = none) :
    (useReverse idx query).1 = false ∧
      (useReverse idx query).2.reverse = Direction.direct := by
  rw [useReverse_eq]
  have hcr : checkReverses idx query = Direction.auto := by
    rw [checkReverses_of_no_match idx query hrules, hconf]
  unfold resolveDirection
  rw [if_neg (by rw [hauto]; simp), if_neg (by rw [hauto]; simp), hcr]
  simp [wildcardHeuristic, hw]

theorem claim4_witness :
    (useReverse emptyFinder (("a.b.c").toList)).1 = false :=
  (claim4_literal_forward emptyFinder (("a.b.c").toList) rfl (by decide)
    (by intro rule hr; simp [emptyFinder, NewIndex] at hr) (by decide)).1

/-- C8: with an auto state, the rule walk returns the first rule all of
whose present fields match (absent fields match everything), falling back to
the configured direction; a first match with a non-auto direction forces the
resolved direction. -/
theorem claim8_first_rule_wins (idx : IndexFinder) (query : List Char)
    (hauto : idx.reverse = Direction.auto) :
    checkReverses idx query =
      (match idx.confReverses.find? (ruleMatches query) with
       | some rule => IndexReverse rule.reverse
       | none => idx.confReverse)
    ∧ (∀ rule, idx.confReverses.find? (ruleMatches query) = some rule →
        IndexReverse rule.reverse ≠ Direction.auto →
        (useReverse idx query).2.reverse = IndexReverse rule.reverse
        ∧ ((useReverse idx query).1 = true ↔
            IndexReverse rule.reverse = Direction.reversed)) := by
  refine ⟨checkReverses_eq_find idx query, ?_⟩
  intro rule hfind hne
  have hcr : checkReverses idx query = IndexReverse rule.reverse := by
    rw [checkReverses_eq_find, hfind]
  have hrd : resolveDirection idx query = IndexReverse rule.reverse := by
    unfold resolveDirection
    rw [if_neg (by rw [hauto]; simp), if_neg (by rw [hauto]; simp), hcr]
    cases h : IndexReverse rule.reverse with
    | auto => exact absurd h hne
    | direct => rfl
    | reversed => rfl
  rw [useReverse_eq]
  constructor
  · simp [hrd]
  · simp [hrd]

theorem claim8_witness :
    (useReverse finderC8 (("a.b").toList)).2.reverse = Direction.reversed := by
  have h := (claim8_first_rule_wins finderC8 (("a.b").toList) rfl).2 ruleAPre
    (by rfl) (by decide)
  rw [h.1]
  decide

/-- C10: when the first matching rule carries the auto direction, the rule
walk stops there and yields auto no matter what later rules would say, and
the resolver falls through to the wildcard-position heuristic. -/
theorem claim10_auto_rule_stops (idx : IndexFinder) (query : List Char)
    (rs1 : List IndexReverseRule) (rule : IndexReverseRule)
    (rs2 : List IndexReverseRule)
    (hconf : idx.confReverses = rs1 ++ rule :: rs2)
    (h1 : ∀ r ∈ rs1, ruleMatches query r = false)
    (h2 : ruleMatches query rule = true)
    (h3 : IndexReverse rule.reverse = Direction.auto)
    (hauto : idx.reverse = Direction.auto) :
    checkReverses idx query = Direction.auto
    ∧ (useReverse idx query).1 = wildcardHeuristic query
    ∧ (useReverse idx query).2.reverse =
        (if wildcardHeuristic query then Direction.reversed
         else Direction.direct) := by
  have hfind : idx.confReverses.find? (ruleMatches query) = some rule := by
    rw [hconf]
    clear hconf
    induction rs1 with
    | nil => rw [List.nil_append, List.find?_cons_of_pos _ h2]
    | cons a t iht =>
      rw [List.cons_append,
        List.find?_cons_of_neg _ (by rw [h1 a (List.mem_cons_self a t)]; simp)]
      exact iht (fun r hr => h1 r (List.mem_cons_of_mem a hr))
  have hcr : checkReverses idx query = Direction.auto := by
    rw [checkReverses_eq_find, hfind]
    exact h3
  have hrd : resolveDirection idx query =
      (if wildcardHeuristic query then Direction.reversed
       else Direction.direct) := by
    unfold resolveDirection
    rw [if_neg (by rw [hauto]; simp), if_neg (by rw [hauto]; simp), hcr]
  refine ⟨hcr, ?_, ?_⟩
  · rw [useReverse_eq]
    cases hh : wildcardHeuristic query
    · simp [hrd, hh]
    · simp [hrd, hh]
  · rw [useReverse_eq]
    simp [hrd]

theorem claim10_witness :
    (useReverse finderC10 (("a.b").toList)).1 = false := by
  have h := claim10_auto_rule_stops finderC10 (("a.b").toList) [] ruleAllAuto
    [ruleAPre] rfl (by intro r hr; simp at hr) (by decide) (by decide) rfl
  rw [h.2.1]
  decide

/-- C1: for every executed query, the predicate's first clause equates
`Level` with the pattern's level (separator count plus one) plus the offset
selected exactly by direction and daily mode: reversed+daily 10000,
forward+non-daily 20000, reversed+non-daily 30000, forward+daily 0. -/
theorem claim1_level_offset_table (idx : IndexFinder) (query : List Char)
    (fromT untilT : Int) (resp : Option (List Nat)) :
    ((Execute idx query fromT untilT resp).2).head? =
      some (Cond.eq (("Level").toList)
        (CondVal.num (countDots query + 1 +
          (if (Execute idx query fromT untilT resp).1.useDaily then
            (if (useReverse idx query).1 then 10000 else 0)
           else
            (if (useReverse idx query).1 then 30000 else 20000))))) := by
  rw [Execute_eq, useReverse_eq]
  by_cases hD : (idx.dailyEnabled = true ∧ 0 < fromT ∧ 0 < untilT)
  · by_cases hR : resolveDirection idx query = Direction.reversed
    · simp [hD, hR, ReverseLevelOffset]
    · simp [hD, hR]
  · by_cases hR : resolveDirection idx query = Direction.reversed
    · simp [hD, hR, ReverseTreeLevelOffset]
    · simp [hD, hR, TreeLevelOffset]

/-- C7: daily mode is used exactly when the daily flag is set and both
bounds are strictly positive; in daily mode the final clause is the
inclusive `YYYY-MM-DD` date range, otherwise it is equality with the fixed
sentinel tree date. -/
theorem claim7_daily_mode (idx : IndexFinder) (query : List Char)
    (fromT untilT : Int) (resp : Option (List Nat)) :
    ((Execute idx query fromT untilT resp).1.useDaily = true ↔
        (idx.dailyEnabled = true ∧ 0 < fromT ∧ 0 < untilT))
    ∧ ((Execute idx query fromT untilT resp).1.useDaily = true →
        ((Execute idx query fromT untilT resp).2).getLast? =
          some (Cond.dateBetween (formatDate fromT) (formatDate untilT)))
    ∧ ((Execute idx query fromT untilT resp).1.useDaily = false →
        ((Execute idx query fromT untilT resp).2).getLast? =
          some (Cond.eq (("Date").toList) (CondVal.str DefaultTreeDate))) := by
  rw [Execute_eq]
  by_cases hD : (idx.dailyEnabled = true ∧ 0 < fromT ∧ 0 < untilT)
  · simp [hD]
  · simp [hD]

theorem claim7_witness :
    ((Execute dailyFinder (("a.b").toList) 86400 172800 none).2).getLast? =
      some (Cond.dateBetween (("1970-01-02").toList) (("1970-01-03").toList)) := by
  have h := (claim7_daily_mode dailyFinder (("a.b").toList) 86400 172800 none).2.1
    (by decide)
  rw [h]
  decide

/-- C5: decoding is total (the decoder is a function to sequences of byte
strings) and a nil or empty response body yields the empty sequence, for
both `List()` and `Series()`. -/
theorem claim5_empty_decoding (idx : IndexFinder) (os : Bool)
    (h : idx.body = none ∨ idx.body = some []) :
    (makeList idx os).1 = [] := by
  rcases h with h | h
  · simp [makeList, h]
  · rw [makeList_eq idx os [] h]
    cases hr : (useReverse idx []).1 <;> simp [splitOnElem, keepRow]

theorem claim5_witness : (makeList emptyFinder true).1 = [] :=
  claim5_empty_decoding emptyFinder true (Or.inl rfl)

/-- C6 fails as stated on a reversed-direction finder: with response body
`".b\n"` (bytes 46, 98, 10), `Series()` keeps the line `".b"` (its final
byte is not the separator) and then un-reverses it to `"b."` (bytes 98, 46),
an entry whose final byte IS the hierarchy separator — so `Series()` can
return an entry ending in the separator, and it differs from `List()`'s
output filtered by the directory marker. -/
theorem claim6_counterexample :
    (SeriesF reversedDotB).1 = [[98, 46]]
      ∧ ((ListF reversedDotB).1).filter
          (fun row => !(decide (row.getLast? = some 46))) = [] := by
  constructor
  · decide
  · decide

/-- C6 (amended): for a finder whose resolved direction is Forward (no
un-reversal step), the decoder splits the body on the newline byte, drops
empty lines, and for `Series()` additionally drops exactly the lines whose
final byte is the hierarchy separator, preserving relative order; hence
`Series()` never returns an entry ending in the separator, and `List()`'s
output filtered by the directory marker equals `Series()`'s output. -/
theorem claim6_forward_decoder (idx : IndexFinder) (b : List Nat)
    (hdir : idx.reverse = Direction.direct) (hb : idx.body = some b) :
    (ListF idx).1 = (splitOnElem 10 b).filter (keepRow false)
    ∧ (SeriesF idx).1 = (splitOnElem 10 b).filter (keepRow true)
    ∧ (SeriesF idx).1 =
        ((ListF idx).1).filter (fun row => !(decide (row.getLast? = some 46)))
    ∧ (∀ row ∈ (SeriesF idx).1, row.getLast? ≠ some 46) := by
  have hu := useReverse_of_direct idx [] hdir
  have hl := makeList_eq idx false b hb
  have hs := makeList_eq idx true b hb
  rw [hu] at hl hs
  simp only [Prod.fst, Bool.false_eq_true, if_false] at hl hs
  have hfl : (ListF idx).1 = (splitOnElem 10 b).filter (keepRow false) := by
    unfold ListF
    rw [hl]
  have hfs : (SeriesF idx).1 = (splitOnElem 10 b).filter (keepRow true) := by
    unfold SeriesF
    rw [hs]
  refine ⟨hfl, hfs, ?_, ?_⟩
  · rw [hfl, hfs, List.filter_filter]
    apply List.filter_congr
    intro row hrow
    by_cases he : row = []
    · simp [keepRow, he]
    · by_cases hd46 : row.getLast? = some 46
      · simp [keepRow, he, hd46]
      · simp [keepRow, he, hd46]
  · intro row hrow hc
    rw [hfs] at hrow
    have hk := List.of_mem_filter hrow
    have hne : row ≠ [] := by
      intro h0
      rw [h0] at hc
      simp at hc
    rw [keepRow, if_neg hne, if_pos ⟨rfl, hc⟩] at hk
    exact Bool.false_ne_true hk

theorem claim6_forward_decoder_witness :
    (SeriesF forwardAB).1 = [[97, 46, 98, 46, 99]] := by
  have h := (claim6_forward_decoder forwardAB
    [97, 46, 98, 46, 10, 97, 46, 98, 46, 99, 10] (by decide) (by decide)).2.1
  rw [h]
  decide

/-- C9: `List()`/`Series()` never change the stored response body, and a
second call after a first one returns the same sequence as a fresh first
call would: repeated decoding derives the same output from the same body. -/
theorem claim9_body_immutable_repeat (idx : IndexFinder) (os os' : Bool) :
    (makeList idx os).2.body = idx.body
    ∧ (makeList ((makeList idx os).2) os').1 = (makeList idx os').1 := by
  cases hb : idx.body with
  | none =>
    constructor
    · simp [makeList, hb]
    · simp [makeList, hb]
  | some b =>
    have hstate : (makeList idx os).2 = (useReverse idx []).2 := by
      rw [makeList_eq idx os b hb]
    have hbody : ((useReverse idx []).2).body = some b := by
      rw [useReverse_eq]
      simpa using hb
    constructor
    · rw [hstate, useReverse_eq]
      simpa using hb
    · rw [hstate, makeList_eq ((useReverse idx []).2) os' b hbody,
        makeList_eq idx os' b hb, useReverse_again idx [] []]

end GraphiteIndex
